import Mathlib

/-!
Verification of the pyEisen wavelet library.

Shallow embedding of the two wavelet-synthesis routines
(pyeisen/family.py morlet and pyeisen/wavelet.py morlet_family),
the FFT convolution wrapper (pyeisen/wavelet.py fconv_family) and the
slicing helper (pyeisen/wavelet.py centered).

Real floating point arithmetic is modelled by exact real arithmetic;
numpy arrays are modelled by lists (row major for 2D data); a Python
function that can raise ValueError returns Except String; a Python
function that can fall off the end and return None returns an Option
inside the Except.
-/

open List

/-! ## Basic numeric helpers -/

/-- Sum of squared magnitudes of a complex sequence, as computed by
np.sum(np.abs(w) ** 2). -/
noncomputable def energy (l : List ℂ) : ℝ :=
  (l.map fun z => Complex.abs z ^ 2).sum

/-- Embedding of np.linspace(start, stop, num) with endpoint=True:
num equally spaced points from start to stop inclusive. -/
noncomputable def linspace (start stop : ℝ) (num : ℕ) : List ℝ :=
  List.map (fun k : ℕ => start + (stop - start) * (k : ℝ) / ((num : ℝ) - 1))
    (List.range num)

/-- Embedding of np.arange(s, e) over integers. -/
def arange (s e : ℤ) : List ℤ :=
  List.map (fun k : ℕ => s + (k : ℤ)) (List.range (e - s).toNat)

/-- Reorders xs by a list of indices, as numpy fancy indexing xs[ord] does. -/
def reindex {α : Type} (ord : List ℕ) (xs : List α) (d : α) : List α :=
  ord.map fun i => xs.getD i d

/-- Embedding of np.argsort(keys): the indices 0..n-1 sorted by key value.
The numpy default sort is unstable, so tie order is unspecified there; the
deterministic stable merge sort is used as the model, which satisfies every
property the specification promises (a sorting permutation of the indices). -/
noncomputable def argsort (keys : List ℝ) : List ℕ :=
  (List.range keys.length).mergeSort fun i j => decide (keys.getD i 0 ≤ keys.getD j 0)

/-! ## scipy.signal.morlet

Embedding of the scipy Morlet generator used by both synthesis routines:
x = linspace(-s*2*pi, s*2*pi, M); output = exp(1j*w*x);
if complete: output -= exp(-0.5*w**2);
output *= exp(-0.5*x**2) * pi**(-0.25). -/

/-- Value of one sample of the scipy Morlet wavelet at point x. -/
noncomputable def morlet_sample (w : ℝ) (complete : Bool) (x : ℝ) : ℂ :=
  (Complex.exp (Complex.I * w * x) -
      (if complete then ((Real.exp (-0.5 * w ^ 2) : ℝ) : ℂ) else 0)) *
    ((Real.exp (-0.5 * x ^ 2) * Real.pi ^ (-(0.25 : ℝ)) : ℝ) : ℂ)

/-- Embedding of scipy.signal.morlet(M, w, s, complete). -/
noncomputable def scipy_morlet (M : ℕ) (w s : ℝ) (complete : Bool) : List ℂ :=
  (linspace (-s * 2 * Real.pi) (s * 2 * Real.pi) M).map (morlet_sample w complete)

/-! ## Wavelet synthesis (pyeisen/family.py and pyeisen/wavelet.py)

The two files share every line of the pipeline except the energy
normalizer, so the stages are shared definitions, each one the direct
transcription of one source line. -/

/-- Stage st = cycles / (2 * np.pi * freqs). -/
noncomputable def st_list (freqs cycles : List ℝ) : List ℝ :=
  List.zipWith (fun c f => c / (2 * Real.pi * f)) cycles freqs

/-- Stage max_len = np.max(np.ceil(st * Fs * n_win)). The getD 0 default is
never reached: validation guarantees a non-empty list. -/
noncomputable def support_len (freqs cycles : List ℝ) (fs n_win : ℝ) : ℤ :=
  (((st_list freqs cycles).map fun x => ⌈x * fs * n_win⌉).max?).getD 0

/-- Stage scales = (freqs * max_len) / (2 * cycles * Fs). -/
noncomputable def scales_list (freqs cycles : List ℝ) (fs n_win : ℝ) : List ℝ :=
  List.zipWith (fun f c => f * ((support_len freqs cycles fs n_win : ℤ) : ℝ) / (2 * c * fs))
    freqs cycles

/-- Stage family = [morlet(max_len, w=cycles[i], s=scales[i], complete) for i].
When max_len is negative, np.linspace inside the scipy generator raises, so
the synthesis functions below guard the bank construction with a sample-count
check and this stage is only reached with a non-negative support length,
where the toNat conversion is exact. -/
noncomputable def raw_bank (freqs cycles : List ℝ) (fs n_win : ℝ) (complete : Bool) :
    List (List ℂ) :=
  List.zipWith (fun c s => scipy_morlet (support_len freqs cycles fs n_win).toNat c s complete)
    cycles (scales_list freqs cycles fs n_win)

/-- Stage energies = [sqrt(sum(abs(w)**2)) for w in family], from family.py. -/
noncomputable def energies_plain (bank : List (List ℂ)) : List ℝ :=
  bank.map fun wv => Real.sqrt (energy wv)

/-- Stage energies = [sqrt(sum(abs(w)**2)/Fs) for w in family], from wavelet.py. -/
noncomputable def energies_fs (bank : List (List ℂ)) (fs : ℝ) : List ℝ :=
  bank.map fun wv => Real.sqrt (energy wv / fs)

/-- Stage family = [family[i] / energies[i] for i]. -/
noncomputable def norm_rows (bank : List (List ℂ)) (energies : List ℝ) : List (List ℂ) :=
  List.zipWith (fun wv e => wv.map fun z => z / ((e : ℝ) : ℂ)) bank energies

/-- Stage scales = 1 / scales, the readable scale used as the sort key. -/
noncomputable def readable_scales (freqs cycles : List ℝ) (fs n_win : ℝ) : List ℝ :=
  (scales_list freqs cycles fs n_win).map fun s => 1 / s

/-- Output record of both synthesis routines (the returned dict). -/
structure WaveletFamily : Type where
  wavelets : List (List ℂ)
  scales : List ℝ
  freqs : List ℝ
  cycles : List ℝ

/-- Embedding of pyeisen/family.py morlet(freqs, cycles, Fs, n_win, complete).
A negative computed max_len makes np.linspace raise inside the first
scipy morlet call of the bank comprehension; all calls share one max_len and
the comprehension is non-empty after validation, so that raise is modelled
as a single sample-count check before the bank construction. -/
noncomputable def morlet (freqs cycles : List ℝ) (fs n_win : ℝ) (complete : Bool) :
    Except String WaveletFamily :=
  if freqs.length < 1 then
    .error "At least one frequency must be specified."
  else if cycles.length ≠ freqs.length then
    .error "Each frequency must have an associated number of cycles."
  else if fs ≤ 0 then
    .error "Sampling frequency must be non-negative."
  else if support_len freqs cycles fs n_win < 0 then
    .error "Number of samples must be non-negative."
  else
    let bank := norm_rows (raw_bank freqs cycles fs n_win complete)
      (energies_plain (raw_bank freqs cycles fs n_win complete))
    let rs := readable_scales freqs cycles fs n_win
    let ord := argsort rs
    .ok ⟨reindex ord bank [], reindex ord rs 0, reindex ord freqs 0, reindex ord cycles 0⟩

/-- Embedding of pyeisen/wavelet.py morlet_family(freqs, cycles, Fs, n_win, complete);
identical to morlet except that the energy normalizer divides by Fs, with the
same modelling of the np.linspace raise for a negative max_len. -/
noncomputable def morlet_family (freqs cycles : List ℝ) (fs n_win : ℝ) (complete : Bool) :
    Except String WaveletFamily :=
  if freqs.length < 1 then
    .error "At least one frequency must be specified."
  else if cycles.length ≠ freqs.length then
    .error "Each frequency must have an associated number of cycles."
  else if fs ≤ 0 then
    .error "Sampling frequency must be non-negative."
  else if support_len freqs cycles fs n_win < 0 then
    .error "Number of samples must be non-negative."
  else
    let bank := norm_rows (raw_bank freqs cycles fs n_win complete)
      (energies_fs (raw_bank freqs cycles fs n_win complete) fs)
    let rs := readable_scales freqs cycles fs n_win
    let ord := argsort rs
    .ok ⟨reindex ord bank [], reindex ord rs 0, reindex ord freqs 0, reindex ord cycles 0⟩

/-! ## Slicing helper (pyeisen/wavelet.py centered) -/

/-- Embedding of centered(curr_size, new_size): center indices of a window of
new_size inside an axis of curr_size; integer division is Python floor
division. -/
def centered (curr_size new_size : ℤ) : Except String (List ℤ) :=
  if new_size ≥ curr_size then
    .error "New size must be shorter than the current size."
  else
    .ok (arange (Int.fdiv (curr_size - new_size) 2)
      (Int.fdiv (curr_size - new_size) 2 + new_size))

/-! ## Convolution (pyeisen/wavelet.py fconv_family)

The scipy fftconvolve call on the (samples, wavelets) bank against a
reshaped single channel computes, per wavelet column, the exact full
linear convolution of that column with the channel; it is embedded as
that exact linear convolution. -/

/-- Number of columns of a row-major 2D array. -/
def ncols (a : List (List ℂ)) : ℕ := (a.headD []).length

/-- Column j of a row-major 2D array. -/
noncomputable def col (a : List (List ℂ)) (j : ℕ) : List ℂ :=
  a.map fun r => r.getD j 0

/-- Coefficient t of the full linear convolution of x and y. -/
noncomputable def convAt (x y : List ℂ) (t : ℕ) : ℂ :=
  ((List.range x.length).map fun a =>
    x.getD a 0 * (if a ≤ t then y.getD (t - a) 0 else 0)).sum

/-- Full convolution tensor (time, wavelet, channel) assembled by the
per-channel loop of fconv_family before mode truncation. -/
noncomputable def conv_tensor (wavelets signal : List (List ℂ)) : List (List (List ℂ)) :=
  (List.range (wavelets.length + signal.length - 1)).map fun t =>
    (List.range (ncols wavelets)).map fun w =>
      (List.range (ncols signal)).map fun ch =>
        convAt (col wavelets w) (col signal ch) t

/-- Embedding of pyeisen/wavelet.py fconv_family(wavelets, signal, mode).
The Python function has no else branch over mode: a mode outside the three
recognized strings falls off the end and returns None, embedded as
Except.ok none. -/
noncomputable def fconv_family (wavelets signal : List (List ℂ)) (mode : String) :
    Except String (Option (List (List (List ℂ)))) :=
  let n1 := wavelets.length
  let n2 := signal.length
  if n1 > n2 then
    .error "Wavelet bank cannot have greater length than signal."
  else
    let ns := n1 + n2 - 1
    let arr := conv_tensor wavelets signal
    if mode = "full" then .ok (some arr)
    else if mode = "same" then
      match centered (ns : ℤ) (n2 : ℤ) with
      | .error e => .error e
      | .ok idx => .ok (some (idx.map fun i => arr.getD i.toNat []))
    else if mode = "valid" then
      match centered (ns : ℤ) ((((n2 : ℤ) - (n1 : ℤ)).natAbs + 1 : ℕ) : ℤ) with
      | .error e => .error e
      | .ok idx => .ok (some (idx.map fun i => arr.getD i.toNat []))
    else .ok none

/-! ## Channel permutation (for the permutation-invariance claim) -/

/-- One row with entries reordered by p: new entry j is old entry p j. -/
noncomputable def rowPerm (p : ℕ → ℕ) (ws : List ℂ) : List ℂ :=
  (List.range ws.length).map fun j => ws.getD (p j) 0

/-- Signal with channels reordered by p: new channel j is old channel p j. -/
noncomputable def permSignal (p : ℕ → ℕ) (signal : List (List ℂ)) : List (List ℂ) :=
  signal.map (rowPerm p)

/-- Channel axis of a (time, wavelet, channel) tensor reordered by p. -/
noncomputable def permChan (p : ℕ → ℕ) (a : List (List (List ℂ))) : List (List (List ℂ)) :=
  a.map fun ts => ts.map (rowPerm p)

/-! ## Time axis

The time axis of the synthesized family is produced by a revision of
family.py whose source is not part of this snapshot (only its test
exercises it). -/

/-- Modelled from the spec: the missing time-axis construction of the
WaveletFamily; a 1D real sequence of length L, one value per sample,
centered at zero, with spacing 1/sample_rate. -/
noncomputable def time_axis (L : ℕ) (fs : ℝ) : List ℝ :=
  List.map (fun k : ℕ => ((k : ℝ) - ((L : ℝ) - 1) / 2) / fs) (List.range L)

/-! ## Generic list lemmas -/

lemma getD_map_of_lt {α β : Type} (f : α → β) (l : List α) {i : ℕ}
    (h : i < l.length) (d : α) (d' : β) : (l.map f).getD i d' = f (l.getD i d) := by
  rw [List.getD_eq_getElem l d h, List.getD_eq_getElem (l.map f) d' (by simpa using h),
    List.getElem_map]

lemma getD_map_fix {α β : Type} (f : α → β) (l : List α) (i : ℕ)
    {d : α} {d' : β} (hd : f d = d') : (l.map f).getD i d' = f (l.getD i d) := by
  induction l generalizing i with
  | nil => simpa [List.getD] using hd.symm
  | cons a t ih =>
    cases i with
    | zero => simp [List.getD]
    | succ k => simpa [List.getD] using ih k

lemma mem_zipWith {α β γ : Type} {f : α → β → γ} {l₁ : List α} {l₂ : List β} {x : γ}
    (h : x ∈ List.zipWith f l₁ l₂) : ∃ a ∈ l₁, ∃ b ∈ l₂, x = f a b := by
  induction l₁ generalizing l₂ with
  | nil => simp at h
  | cons a t ih =>
    cases l₂ with
    | nil => simp at h
    | cons b s =>
      rcases List.mem_cons.mp h with h' | h'
      · exact ⟨a, List.mem_cons_self _ _, b, List.mem_cons_self _ _, h'⟩
      · rcases ih h' with ⟨a', ha', b', hb', hx⟩
        exact ⟨a', List.mem_cons_of_mem _ ha', b', List.mem_cons_of_mem _ hb', hx⟩

lemma le_foldl_max (l : List ℤ) (a b : ℤ) (h : b ≤ a) : b ≤ l.foldl max a := by
  induction l generalizing a with
  | nil => simpa using h
  | cons x t ih => exact ih (max a x) (le_trans h (le_max_left a x))

lemma mem_le_foldl_max (l : List ℤ) (a x : ℤ) (hx : x ∈ l) : x ≤ l.foldl max a := by
  induction l generalizing a with
  | nil => simp at hx
  | cons y t ih =>
    rcases List.mem_cons.mp hx with h | h
    · exact h ▸ le_foldl_max t (max a y) y (le_max_right a y)
    · exact ih (max a y) h

lemma le_max?_getD {l : List ℤ} {x : ℤ} (hx : x ∈ l) (d : ℤ) :
    x ≤ (l.max?).getD d := by
  cases l with
  | nil => simp at hx
  | cons a t =>
    rcases List.mem_cons.mp hx with h | h
    · simpa [List.max?] using h ▸ le_foldl_max t a a le_rfl
    · simpa [List.max?] using mem_le_foldl_max t a x h

lemma getD_range {n k : ℕ} (h : k < n) : (List.range n).getD k 0 = k := by
  rw [List.getD_eq_getElem _ _ (by simpa using h), List.getElem_range]

lemma arange_length (s e : ℤ) : (arange s e).length = (e - s).toNat := by
  rw [arange, List.length_map, List.length_range]

lemma arange_getD (s e : ℤ) {k : ℕ} (h : k < (e - s).toNat) :
    (arange s e).getD k 0 = s + k := by
  rw [arange,
    getD_map_of_lt (fun k : ℕ => s + (k : ℤ)) (List.range (e - s).toNat)
      (by simpa using h) 0,
    getD_range h]

lemma reindex_length {α : Type} (ord : List ℕ) (xs : List α) (d : α) :
    (reindex ord xs d).length = ord.length := by
  simp [reindex]

lemma mem_reindex {α : Type} {ord : List ℕ} {xs : List α} {d : α} {n : ℕ}
    (hperm : ord.Perm (List.range n)) (hlen : xs.length = n) {row : α}
    (hrow : row ∈ reindex ord xs d) : row ∈ xs := by
  rcases List.mem_map.mp hrow with ⟨i, hi, hrow⟩
  have hilt : i < n := by simpa using hperm.mem_iff.mp hi
  rw [← hrow, List.getD_eq_getElem xs d (by omega)]
  exact List.getElem_mem _

/-! ## Claim C5: the centered helper -/

/-- Claim C5: centered(curr, new) fails exactly when new ≥ curr, and otherwise
returns the contiguous index range starting at floor((curr - new) / 2) of
length new; floor division on the odd differences. -/
theorem claim_C5 : ∀ curr_size new_size : ℤ,
    (curr_size ≤ new_size →
      centered curr_size new_size = .error "New size must be shorter than the current size.") ∧
    (new_size < curr_size →
      ∃ l, centered curr_size new_size = .ok l ∧ l.length = new_size.toNat ∧
        ∀ k : ℕ, k < new_size.toNat →
          l.getD k 0 = Int.fdiv (curr_size - new_size) 2 + k) := by
  intro c n
  constructor
  · intro h
    rw [centered, if_pos (by omega)]
  · intro h
    refine ⟨_, by rw [centered, if_neg (by omega)], ?_, ?_⟩
    · rw [arange_length]
      omega
    · intro k hk
      rw [arange_getD]
      omega

/-- Witness for claim C5 at the concrete pair of the spec, centered(17, 7):
start index 5 and length 7, that is the range 5..11. -/
theorem claim_C5_witness :
    (7 : ℤ) < 17 ∧ ∃ l, centered 17 7 = .ok l ∧ l.length = (7 : ℤ).toNat ∧
      ∀ k : ℕ, k < (7 : ℤ).toNat → l.getD k 0 = Int.fdiv (17 - 7) 2 + k :=
  ⟨by decide, (claim_C5 17 7).2 (by decide)⟩

/-! ## Claim C8: valid mode with a short signal -/

/-- Claim C8: when the signal has fewer rows than the wavelet bank, fconv_family
with mode valid fails with the shape error; the check precedes the allocation
of the output tensor in the source. -/
theorem claim_C8 (wavelets signal : List (List ℂ))
    (h : signal.length < wavelets.length) :
    fconv_family wavelets signal "valid" =
      .error "Wavelet bank cannot have greater length than signal." := by
  simp only [fconv_family]
  rw [if_pos h]

/-- Witness for claim C8: a two row bank against a one row signal. -/
theorem claim_C8_witness :
    fconv_family [[(1 : ℂ)], [(1 : ℂ)]] [[(1 : ℂ)]] "valid" =
      .error "Wavelet bank cannot have greater length than signal." :=
  claim_C8 _ _ (by simp)

/-! ## Claim C3: unrecognized mode string -/

/-- Claim C3 failing input: fconv_family with mode bogus does not raise; the
Python source has no else branch over mode and falls off the end, returning
None (embedded as ok none) instead of the InvalidParameter rejection the
specification requires. -/
theorem claim_C3_code_bug :
    fconv_family [[(1 : ℂ)]] [[(1 : ℂ)]] "bogus" = .ok none := by
  simp only [fconv_family]
  rw [if_neg (by simp), if_neg (by decide), if_neg (by decide), if_neg (by decide)]

/-! ## Claim C7: validation of the synthesis inputs -/

/-- Claim C10: at sample rate 1 the two synthesis implementations agree on
every input, because dividing the energy by the sample rate is then the
identity; every field of the returned family coincides. -/
theorem claim_C10 : ∀ (freqs cycles : List ℝ) (n_win : ℝ) (complete : Bool),
    morlet freqs cycles 1 n_win complete = morlet_family freqs cycles 1 n_win complete := by
  intro f c nw cm
  simp only [morlet, morlet_family, energies_fs, energies_plain, div_one]

/-! ## Energy lemmas -/

lemma energy_nil : energy [] = 0 := by
  simp [energy]

lemma energy_cons (z : ℂ) (l : List ℂ) :
    energy (z :: l) = Complex.abs z ^ 2 + energy l := by
  simp [energy]

lemma energy_nonneg (l : List ℂ) : 0 ≤ energy l := by
  induction l with
  | nil => simp [energy_nil]
  | cons z t ih =>
    rw [energy_cons]
    exact add_nonneg (by positivity) ih

lemma energy_pos {l : List ℂ} {z : ℂ} (hz : z ∈ l) (h : z ≠ 0) : 0 < energy l := by
  induction l with
  | nil => simp at hz
  | cons a t ih =>
    rw [energy_cons]
    rcases List.mem_cons.mp hz with h' | h'
    · have ha : (0 : ℝ) < Complex.abs a ^ 2 :=
        pow_pos (Complex.abs.pos (h' ▸ h)) 2
      exact add_pos_of_pos_of_nonneg ha (energy_nonneg t)
    · exact add_pos_of_nonneg_of_pos (by positivity) (ih h')

lemma energy_map_div (l : List ℂ) (r : ℝ) :
    energy (l.map fun z => z / ((r : ℝ) : ℂ)) = energy l / r ^ 2 := by
  induction l with
  | nil => simp [energy_nil]
  | cons z t ih =>
    rw [List.map_cons, energy_cons, energy_cons, ih, map_div₀, Complex.abs_ofReal,
      div_pow, sq_abs, div_add_div_same]

/-! ## Morlet generator lemmas -/

lemma linspace_length (a b : ℝ) (n : ℕ) : (linspace a b n).length = n := by
  simp [linspace]

lemma scipy_morlet_length (M : ℕ) (w s : ℝ) (cm : Bool) :
    (scipy_morlet M w s cm).length = M := by
  simp [scipy_morlet, linspace_length]

lemma morlet_sample_ne_zero {w : ℝ} (hw : w ≠ 0) (cm : Bool) (x : ℝ) :
    morlet_sample w cm x ≠ 0 := by
  unfold morlet_sample
  apply mul_ne_zero
  · cases cm with
    | false =>
      rw [if_neg (by simp), sub_zero]
      exact Complex.exp_ne_zero _
    | true =>
      rw [if_pos rfl]
      intro hEq
      rw [sub_eq_zero] at hEq
      have h1 : Complex.abs (Complex.exp (Complex.I * w * x)) = 1 := by
        have hrw : Complex.I * (w : ℂ) * (x : ℂ) = ((w * x : ℝ) : ℂ) * Complex.I := by
          push_cast
          ring
        rw [hrw, Complex.abs_exp_ofReal_mul_I]
      rw [hEq, Complex.abs_ofReal, abs_of_pos (Real.exp_pos _)] at h1
      have h2 : Real.exp (-0.5 * w ^ 2) < 1 := by
        rw [Real.exp_lt_one_iff]
        have : 0 < w ^ 2 := by positivity
        linarith
      linarith
  · exact Complex.ofReal_ne_zero.mpr
      (mul_pos (Real.exp_pos _) (Real.rpow_pos_of_pos Real.pi_pos _)).ne'

lemma mem_scipy_morlet_ne_zero {M : ℕ} {w s : ℝ} (hw : w ≠ 0) (cm : Bool) {z : ℂ}
    (hz : z ∈ scipy_morlet M w s cm) : z ≠ 0 := by
  rcases List.mem_map.mp hz with ⟨x, _, hzx⟩
  exact hzx ▸ morlet_sample_ne_zero hw cm x

lemma scipy_morlet_energy_pos {M : ℕ} (hM : 1 ≤ M) {w s : ℝ} (hw : w ≠ 0) (cm : Bool) :
    0 < energy (scipy_morlet M w s cm) := by
  have hlen : (scipy_morlet M w s cm).length = M := scipy_morlet_length M w s cm
  have hne : scipy_morlet M w s cm ≠ [] := by
    intro h
    rw [h] at hlen
    simp at hlen
    omega
  rcases List.exists_mem_of_ne_nil _ hne with ⟨z, hz⟩
  exact energy_pos hz (mem_scipy_morlet_ne_zero hw cm hz)

/-! ## Lengths of the synthesis stages -/

lemma st_list_length (f c : List ℝ) : (st_list f c).length = min c.length f.length := by
  simp [st_list]

lemma scales_list_length (f c : List ℝ) (fs nw : ℝ) :
    (scales_list f c fs nw).length = min f.length c.length := by
  simp [scales_list]

lemma raw_bank_length (f c : List ℝ) (fs nw : ℝ) (cm : Bool) (h2 : c.length = f.length) :
    (raw_bank f c fs nw cm).length = f.length := by
  simp [raw_bank, scales_list_length, h2]

lemma readable_scales_length (f c : List ℝ) (fs nw : ℝ) (h2 : c.length = f.length) :
    (readable_scales f c fs nw).length = f.length := by
  simp [readable_scales, scales_list_length, h2]

/-! ## Support length -/

lemma support_len_pos (f c : List ℝ) (fs nw : ℝ)
    (h1 : 1 ≤ f.length) (h2 : c.length = f.length)
    (hf : ∀ x ∈ f, 0 < x) (hc : ∀ x ∈ c, 0 < x) (h3 : 0 < fs) (hnw : 0 < nw) :
    1 ≤ support_len f c fs nw := by
  have hlen : (st_list f c).length = f.length := by
    rw [st_list_length, h2, min_self]
  have hne : st_list f c ≠ [] := by
    intro h
    rw [h] at hlen
    simp at hlen
    omega
  rcases List.exists_mem_of_ne_nil _ hne with ⟨x, hx⟩
  rcases mem_zipWith hx with ⟨cc, hcc, ff, hff, hxe⟩
  have hxpos : 0 < x := by
    rw [hxe]
    exact div_pos (hc cc hcc) (by
      have := hf ff hff
      positivity)
  have hceil : 0 < ⌈x * fs * nw⌉ :=
    Int.ceil_pos.mpr (mul_pos (mul_pos hxpos h3) hnw)
  have hmem : ⌈x * fs * nw⌉ ∈ (st_list f c).map fun x => ⌈x * fs * nw⌉ :=
    List.mem_map_of_mem _ hx
  have hle := le_max?_getD hmem (0 : ℤ)
  rw [support_len]
  omega

/-! ## Argsort lemmas -/

lemma argsort_perm (keys : List ℝ) : (argsort keys).Perm (List.range keys.length) :=
  List.mergeSort_perm _ _

lemma argsort_length (keys : List ℝ) : (argsort keys).length = keys.length :=
  (argsort_perm keys).length_eq.trans (List.length_range _)

lemma argsort_pairwise (keys : List ℝ) :
    (argsort keys).Pairwise fun i j => keys.getD i 0 ≤ keys.getD j 0 := by
  have h := @List.sorted_mergeSort ℕ
    (fun i j => decide (keys.getD i 0 ≤ keys.getD j 0))
    (fun a b c hab hbc => by
      simp only [decide_eq_true_eq] at *
      exact le_trans hab hbc)
    (fun a b => by
      simp only [Bool.or_eq_true, decide_eq_true_eq]
      exact le_total _ _)
    (List.range keys.length)
  exact h.imp fun hab => of_decide_eq_true hab

/-! ## Normalized bank lemmas -/

lemma norm_rows_energies_plain (bank : List (List ℂ)) :
    norm_rows bank (energies_plain bank) =
      bank.map fun wv => wv.map fun z => z / ((Real.sqrt (energy wv) : ℝ) : ℂ) := by
  rw [energies_plain, norm_rows, List.zipWith_map_right, List.zipWith_same]

lemma norm_rows_energies_fs (bank : List (List ℂ)) (fs : ℝ) :
    norm_rows bank (energies_fs bank fs) =
      bank.map fun wv => wv.map fun z => z / ((Real.sqrt (energy wv / fs) : ℝ) : ℂ) := by
  rw [energies_fs, norm_rows, List.zipWith_map_right, List.zipWith_same]

lemma energy_norm_row (wv : List ℂ) (hE : 0 < energy wv) :
    energy (wv.map fun z => z / ((Real.sqrt (energy wv) : ℝ) : ℂ)) = 1 := by
  rw [energy_map_div, Real.sq_sqrt (le_of_lt hE), div_self (ne_of_gt hE)]

lemma energy_norm_row_fs (wv : List ℂ) (fs : ℝ) (hE : 0 < energy wv) (hfs : 0 < fs) :
    energy (wv.map fun z => z / ((Real.sqrt (energy wv / fs) : ℝ) : ℂ)) = fs := by
  rw [energy_map_div, Real.sq_sqrt (by positivity), div_div_eq_mul_div, mul_comm,
    mul_div_assoc, div_self (ne_of_gt hE), mul_one]

/-! ## Raw bank row lemmas -/

lemma raw_bank_row (f c : List ℝ) (fs nw : ℝ) (cm : Bool) {wv : List ℂ}
    (hwv : wv ∈ raw_bank f c fs nw cm) :
    ∃ cc ∈ c, ∃ s, wv = scipy_morlet (support_len f c fs nw).toNat cc s cm := by
  rcases mem_zipWith hwv with ⟨cc, hcc, s, _, h⟩
  exact ⟨cc, hcc, s, h⟩

lemma raw_bank_row_length (f c : List ℝ) (fs nw : ℝ) (cm : Bool) {wv : List ℂ}
    (hwv : wv ∈ raw_bank f c fs nw cm) :
    wv.length = (support_len f c fs nw).toNat := by
  rcases raw_bank_row f c fs nw cm hwv with ⟨cc, _, s, rfl⟩
  exact scipy_morlet_length _ _ _ _

lemma raw_bank_energy_pos (f c : List ℝ) (fs nw : ℝ) (cm : Bool)
    (h1 : 1 ≤ f.length) (h2 : c.length = f.length)
    (hf : ∀ x ∈ f, 0 < x) (hc : ∀ x ∈ c, 0 < x) (h3 : 0 < fs) (hnw : 0 < nw)
    {wv : List ℂ} (hwv : wv ∈ raw_bank f c fs nw cm) : 0 < energy wv := by
  rcases raw_bank_row f c fs nw cm hwv with ⟨cc, hcc, s, rfl⟩
  refine scipy_morlet_energy_pos ?_ (ne_of_gt (hc cc hcc)) cm
  have := support_len_pos f c fs nw h1 h2 hf hc h3 hnw
  omega

/-! ## Structure of the synthesized family -/

lemma morlet_eq_ok (f c : List ℝ) (fs nw : ℝ) (cm : Bool)
    (h1 : 1 ≤ f.length) (h2 : c.length = f.length) (h3 : 0 < fs)
    (hS : 0 ≤ support_len f c fs nw) :
    morlet f c fs nw cm = .ok
      ⟨reindex (argsort (readable_scales f c fs nw))
          (norm_rows (raw_bank f c fs nw cm) (energies_plain (raw_bank f c fs nw cm))) [],
        reindex (argsort (readable_scales f c fs nw)) (readable_scales f c fs nw) 0,
        reindex (argsort (readable_scales f c fs nw)) f 0,
        reindex (argsort (readable_scales f c fs nw)) c 0⟩ := by
  simp only [morlet, if_neg (by omega : ¬(f.length < 1)),
    if_neg (by omega : ¬(c.length ≠ f.length)), if_neg (not_le.mpr h3),
    if_neg (not_lt.mpr hS)]

lemma morlet_family_eq_ok (f c : List ℝ) (fs nw : ℝ) (cm : Bool)
    (h1 : 1 ≤ f.length) (h2 : c.length = f.length) (h3 : 0 < fs)
    (hS : 0 ≤ support_len f c fs nw) :
    morlet_family f c fs nw cm = .ok
      ⟨reindex (argsort (readable_scales f c fs nw))
          (norm_rows (raw_bank f c fs nw cm) (energies_fs (raw_bank f c fs nw cm) fs)) [],
        reindex (argsort (readable_scales f c fs nw)) (readable_scales f c fs nw) 0,
        reindex (argsort (readable_scales f c fs nw)) f 0,
        reindex (argsort (readable_scales f c fs nw)) c 0⟩ := by
  simp only [morlet_family, if_neg (by omega : ¬(f.length < 1)),
    if_neg (by omega : ¬(c.length ≠ f.length)), if_neg (not_le.mpr h3),
    if_neg (not_lt.mpr hS)]

lemma argsort_readable_perm (f c : List ℝ) (fs nw : ℝ) (h2 : c.length = f.length) :
    (argsort (readable_scales f c fs nw)).Perm (List.range f.length) := by
  have h := argsort_perm (readable_scales f c fs nw)
  rwa [readable_scales_length f c fs nw h2] at h

lemma morlet_ok_energy (f c : List ℝ) (fs nw : ℝ) (cm : Bool)
    (h1 : 1 ≤ f.length) (h2 : c.length = f.length)
    (hf : ∀ x ∈ f, 0 < x) (hc : ∀ x ∈ c, 0 < x) (h3 : 0 < fs) (hnw : 0 < nw) :
    ∃ fam, morlet f c fs nw cm = .ok fam ∧
      fam.wavelets.length = f.length ∧
      (∀ row ∈ fam.wavelets, row.length = (support_len f c fs nw).toNat) ∧
      (∀ row ∈ fam.wavelets, energy row = 1) := by
  have hS : 0 ≤ support_len f c fs nw := by
    have := support_len_pos f c fs nw h1 h2 hf hc h3 hnw
    omega
  refine ⟨_, morlet_eq_ok f c fs nw cm h1 h2 h3 hS, ?_, ?_, ?_⟩
  · rw [reindex_length, argsort_length, readable_scales_length f c fs nw h2]
  · intro row hrow
    have hmem := mem_reindex (argsort_readable_perm f c fs nw h2)
      (by rw [norm_rows_energies_plain, List.length_map, raw_bank_length f c fs nw cm h2]) hrow
    rw [norm_rows_energies_plain] at hmem
    rcases List.mem_map.mp hmem with ⟨wv, hwv, rfl⟩
    rw [List.length_map]
    exact raw_bank_row_length f c fs nw cm hwv
  · intro row hrow
    have hmem := mem_reindex (argsort_readable_perm f c fs nw h2)
      (by rw [norm_rows_energies_plain, List.length_map, raw_bank_length f c fs nw cm h2]) hrow
    rw [norm_rows_energies_plain] at hmem
    rcases List.mem_map.mp hmem with ⟨wv, hwv, rfl⟩
    exact energy_norm_row wv (raw_bank_energy_pos f c fs nw cm h1 h2 hf hc h3 hnw hwv)

lemma morlet_family_ok_energy (f c : List ℝ) (fs nw : ℝ) (cm : Bool)
    (h1 : 1 ≤ f.length) (h2 : c.length = f.length)
    (hf : ∀ x ∈ f, 0 < x) (hc : ∀ x ∈ c, 0 < x) (h3 : 0 < fs) (hnw : 0 < nw) :
    ∃ fam, morlet_family f c fs nw cm = .ok fam ∧
      fam.wavelets.length = f.length ∧
      (∀ row ∈ fam.wavelets, energy row = fs) := by
  have hS : 0 ≤ support_len f c fs nw := by
    have := support_len_pos f c fs nw h1 h2 hf hc h3 hnw
    omega
  refine ⟨_, morlet_family_eq_ok f c fs nw cm h1 h2 h3 hS, ?_, ?_⟩
  · rw [reindex_length, argsort_length, readable_scales_length f c fs nw h2]
  · intro row hrow
    have hmem := mem_reindex (argsort_readable_perm f c fs nw h2)
      (by rw [norm_rows_energies_fs, List.length_map, raw_bank_length f c fs nw cm h2]) hrow
    rw [norm_rows_energies_fs] at hmem
    rcases List.mem_map.mp hmem with ⟨wv, hwv, rfl⟩
    exact energy_norm_row_fs wv fs
      (raw_bank_energy_pos f c fs nw cm h1 h2 hf hc h3 hnw hwv) h3

/-! ## Claim C1: row energies of the two synthesis routines -/

/-- Claim C1 amended: for every valid input, every row of the bank produced by
family.py morlet has energy exactly 1, while every row of the bank produced by
wavelet.py morlet_family has energy equal to the sample rate (hence 1 only
when the sample rate is 1): the two implementations diverge in the energy
normalizer. -/
theorem claim_C1 : ∀ (freqs cycles : List ℝ) (fs n_win : ℝ) (complete : Bool),
    1 ≤ freqs.length → cycles.length = freqs.length →
    (∀ x ∈ freqs, 0 < x) → (∀ x ∈ cycles, 0 < x) → 0 < fs → 0 < n_win →
    ∃ fam₁ fam₂, morlet freqs cycles fs n_win complete = .ok fam₁ ∧
      morlet_family freqs cycles fs n_win complete = .ok fam₂ ∧
      (∀ row ∈ fam₁.wavelets, energy row = 1) ∧
      (∀ row ∈ fam₂.wavelets, energy row = fs) := by
  intro f c fs nw cm h1 h2 hf hc h3 hnw
  rcases morlet_ok_energy f c fs nw cm h1 h2 hf hc h3 hnw with ⟨fam₁, hok₁, _, _, hE₁⟩
  rcases morlet_family_ok_energy f c fs nw cm h1 h2 hf hc h3 hnw with ⟨fam₂, hok₂, _, hE₂⟩
  exact ⟨fam₁, fam₂, hok₁, hok₂, hE₁, hE₂⟩

/-- Witness for claim C1 at frequencies [0.5], cycles [6], sample rate 1. -/
theorem claim_C1_witness :
    ∃ fam₁ fam₂, morlet [(0.5 : ℝ)] [6] 1 7 true = .ok fam₁ ∧
      morlet_family [(0.5 : ℝ)] [6] 1 7 true = .ok fam₂ ∧
      (∀ row ∈ fam₁.wavelets, energy row = 1) ∧
      (∀ row ∈ fam₂.wavelets, energy row = (1 : ℝ)) :=
  claim_C1 [(0.5 : ℝ)] [6] 1 7 true (by simp) (by simp)
    (by
      intro x hx
      simp only [List.mem_singleton] at hx
      rw [hx]
      norm_num)
    (by
      intro x hx
      simp only [List.mem_singleton] at hx
      rw [hx]
      norm_num)
    (by norm_num) (by norm_num)

/-- Counterexample for claim C1 as stated: at sample rate 2 the bank produced by
wavelet.py morlet_family has a row whose energy is 2, not 1. -/
theorem claim_C1_counterexample :
    ∃ fam, morlet_family [(0.5 : ℝ)] [6] 2 7 true = .ok fam ∧
      ¬ (∀ row ∈ fam.wavelets, energy row = 1) := by
  have h := morlet_family_ok_energy [(0.5 : ℝ)] [6] 2 7 true (by simp) (by simp)
    (by
      intro x hx
      simp only [List.mem_singleton] at hx
      rw [hx]
      norm_num)
    (by
      intro x hx
      simp only [List.mem_singleton] at hx
      rw [hx]
      norm_num)
    (by norm_num) (by norm_num)
  rcases h with ⟨fam, hok, hlen, hE⟩
  refine ⟨fam, hok, ?_⟩
  intro hall
  have hne : fam.wavelets ≠ [] := by
    intro hnil
    rw [hnil] at hlen
    simp at hlen
  rcases List.exists_mem_of_ne_nil _ hne with ⟨row, hrow⟩
  have e1 := hall row hrow
  have e2 := hE row hrow
  rw [e1] at e2
  norm_num at e2

/-! ## Claim C6: ordering of the synthesized family -/

/-- Claim C6: the synthesized family is sorted by non-decreasing readable scale
(the returned scales list is non-decreasing) and the four per-wavelet arrays
are all reordered by one and the same permutation of the indices, namely the
argsort of the readable scales. -/
theorem claim_C6 : ∀ (freqs cycles : List ℝ) (fs n_win : ℝ) (complete : Bool),
    1 ≤ freqs.length → cycles.length = freqs.length →
    (∀ x ∈ freqs, 0 < x) → (∀ x ∈ cycles, 0 < x) → 0 < fs → 0 < n_win →
    ∃ fam, morlet freqs cycles fs n_win complete = .ok fam ∧
      fam.scales.Chain' (· ≤ ·) ∧
      (argsort (readable_scales freqs cycles fs n_win)).Perm (List.range freqs.length) ∧
      fam.wavelets = reindex (argsort (readable_scales freqs cycles fs n_win))
        (norm_rows (raw_bank freqs cycles fs n_win complete)
          (energies_plain (raw_bank freqs cycles fs n_win complete))) [] ∧
      fam.scales = reindex (argsort (readable_scales freqs cycles fs n_win))
        (readable_scales freqs cycles fs n_win) 0 ∧
      fam.freqs = reindex (argsort (readable_scales freqs cycles fs n_win)) freqs 0 ∧
      fam.cycles = reindex (argsort (readable_scales freqs cycles fs n_win)) cycles 0 := by
  intro f c fs nw cm h1 h2 hf hc h3 hnw
  have hS : 0 ≤ support_len f c fs nw := by
    have := support_len_pos f c fs nw h1 h2 hf hc h3 hnw
    omega
  refine ⟨_, morlet_eq_ok f c fs nw cm h1 h2 h3 hS, ?_,
    argsort_readable_perm f c fs nw h2, rfl, rfl, rfl, rfl⟩
  have hp := argsort_pairwise (readable_scales f c fs nw)
  exact (hp.map (fun i => (readable_scales f c fs nw).getD i 0) fun a b hab => hab).chain'

/-- Witness for claim C6 at frequencies [2, 1], cycles [5, 5], sample rate 10. -/
theorem claim_C6_witness :
    ∃ fam, morlet [(2 : ℝ), 1] [5, 5] 10 7 true = .ok fam ∧
      fam.scales.Chain' (· ≤ ·) ∧
      (argsort (readable_scales [(2 : ℝ), 1] [5, 5] 10 7)).Perm (List.range 2) ∧
      fam.wavelets = reindex (argsort (readable_scales [(2 : ℝ), 1] [5, 5] 10 7))
        (norm_rows (raw_bank [(2 : ℝ), 1] [5, 5] 10 7 true)
          (energies_plain (raw_bank [(2 : ℝ), 1] [5, 5] 10 7 true))) [] ∧
      fam.scales = reindex (argsort (readable_scales [(2 : ℝ), 1] [5, 5] 10 7))
        (readable_scales [(2 : ℝ), 1] [5, 5] 10 7) 0 ∧
      fam.freqs = reindex (argsort (readable_scales [(2 : ℝ), 1] [5, 5] 10 7)) [(2 : ℝ), 1] 0 ∧
      fam.cycles = reindex (argsort (readable_scales [(2 : ℝ), 1] [5, 5] 10 7)) [(5 : ℝ), 5] 0 :=
  claim_C6 [(2 : ℝ), 1] [5, 5] 10 7 true (by simp) (by simp)
    (by
      intro x hx
      simp only [List.mem_cons, List.mem_singleton, List.not_mem_nil, or_false] at hx
      rcases hx with rfl | rfl <;> norm_num)
    (by
      intro x hx
      simp only [List.mem_cons, List.mem_singleton, List.not_mem_nil, or_false] at hx
      rcases hx with rfl | rfl <;> norm_num)
    (by norm_num) (by norm_num)

/-! ## Claim C4: kernel shape and the time axis -/

lemma support_len_example : support_len [(0.5 : ℝ)] [6] 1 7 = 14 := by
  have hst : st_list [(0.5 : ℝ)] [6] = [6 / (2 * Real.pi * 0.5)] := by
    simp [st_list]
  rw [support_len, hst]
  show (⌈(6 / (2 * Real.pi * 0.5) : ℝ) * 1 * 7⌉ : ℤ) = 14
  have harg : (6 / (2 * Real.pi * 0.5) : ℝ) * 1 * 7 = 42 / Real.pi := by
    rw [show (2 * Real.pi * 0.5 : ℝ) = Real.pi by ring]
    ring
  rw [harg, Int.ceil_eq_iff]
  constructor
  · rw [show ((14 : ℤ) : ℝ) - 1 = 13 by norm_num, lt_div_iff₀ Real.pi_pos]
    linarith [Real.pi_lt_d2]
  · rw [show ((14 : ℤ) : ℝ) = 14 by norm_num, div_le_iff₀ Real.pi_pos]
    linarith [Real.pi_gt_three]

lemma time_axis_length (L : ℕ) (fs : ℝ) : (time_axis L fs).length = L := by
  rw [time_axis, List.length_map, List.length_range]

lemma time_axis_getD (L : ℕ) (fs : ℝ) {k : ℕ} (h : k < L) :
    (time_axis L fs).getD k 0 = ((k : ℝ) - ((L : ℝ) - 1) / 2) / fs := by
  rw [time_axis, getD_map_of_lt _ _ (by simpa using h) 0, getD_range h]

/-- Claim C4: the time axis has one value per sample (length L), spacing
1/sample_rate, and is centered at zero (symmetric entries cancel); at the
example input the common support length is 14 and the kernel has one row
of 14 samples, matching a time axis of length 14. The time-axis field is
modelled from the spec, its producing revision being absent from this
snapshot. -/
theorem claim_C4 :
    (∀ (L : ℕ) (fs : ℝ), (time_axis L fs).length = L) ∧
    (∀ (L : ℕ) (fs : ℝ) (k : ℕ), k + 1 < L →
      (time_axis L fs).getD (k + 1) 0 - (time_axis L fs).getD k 0 = 1 / fs) ∧
    (∀ (L : ℕ) (fs : ℝ) (k : ℕ), k < L →
      (time_axis L fs).getD k 0 + (time_axis L fs).getD (L - 1 - k) 0 = 0) ∧
    ((support_len [(0.5 : ℝ)] [6] 1 7).toNat = 14 ∧
      ∃ fam, morlet [(0.5 : ℝ)] [6] 1 7 true = .ok fam ∧
        fam.wavelets.length = 1 ∧ (∀ row ∈ fam.wavelets, row.length = 14) ∧
        (time_axis (support_len [(0.5 : ℝ)] [6] 1 7).toNat 1).length = 14) := by
  refine ⟨time_axis_length, ?_, ?_, ?_, ?_⟩
  · intro L fs k h
    rw [time_axis_getD L fs h, time_axis_getD L fs (by omega)]
    rw [div_sub_div_same]
    congr 1
    push_cast
    ring
  · intro L fs k h
    have hk : k ≤ L - 1 := by omega
    have hL : 1 ≤ L := by omega
    have hcast : ((L - 1 - k : ℕ) : ℝ) = (L : ℝ) - 1 - (k : ℝ) := by
      rw [Nat.cast_sub hk, Nat.cast_sub hL]
      norm_num
    rw [time_axis_getD L fs h, time_axis_getD L fs (by omega : L - 1 - k < L),
      div_add_div_same]
    have e : ((k : ℝ) - ((L : ℝ) - 1) / 2) + (((L - 1 - k : ℕ) : ℝ) - ((L : ℝ) - 1) / 2)
        = 0 := by
      rw [hcast]
      ring
    rw [e, zero_div]
  · rw [support_len_example]
    rfl
  · have h := morlet_ok_energy [(0.5 : ℝ)] [6] 1 7 true (by simp) (by simp)
      (by
        intro x hx
        simp only [List.mem_singleton] at hx
        rw [hx]
        norm_num)
      (by
        intro x hx
        simp only [List.mem_singleton] at hx
        rw [hx]
        norm_num)
      (by norm_num) (by norm_num)
    rcases h with ⟨fam, hok, hlen, hrows, _⟩
    refine ⟨fam, hok, by simpa using hlen, ?_, ?_⟩
    · intro row hrow
      have h := hrows row hrow
      rw [support_len_example] at h
      simpa using h
    · rw [time_axis_length, support_len_example]
      rfl

/-- Witness for claim C4 at length 14 and sample rate 1: length, first
spacing, and cancellation of the outermost pair of time points. -/
theorem claim_C4_witness :
    (time_axis 14 1).length = 14 ∧
    (time_axis 14 1).getD 1 0 - (time_axis 14 1).getD 0 0 = 1 / 1 ∧
    (time_axis 14 1).getD 0 0 + (time_axis 14 1).getD 13 0 = 0 :=
  ⟨claim_C4.1 14 1, by
      have h := claim_C4.2.1 14 1 0 (by norm_num)
      simpa using h,
    by
      have h := claim_C4.2.2.1 14 1 0 (by norm_num)
      simpa using h⟩

/-! ## Convolution tensor shape lemmas -/

lemma conv_tensor_length (W S : List (List ℂ)) :
    (conv_tensor W S).length = W.length + S.length - 1 := by
  rw [conv_tensor, List.length_map, List.length_range]

lemma conv_tensor_getD (W S : List (List ℂ)) {t : ℕ} (h : t < W.length + S.length - 1) :
    (conv_tensor W S).getD t [] =
      (List.range (ncols W)).map fun w =>
        (List.range (ncols S)).map fun ch => convAt (col W w) (col S ch) t := by
  rw [conv_tensor, getD_map_of_lt _ _ (by simpa using h) 0, getD_range h]

lemma arange_map_getD {α : Type} (arr : List α) (s : ℤ) (m : ℕ) (d : α)
    (hs : 0 ≤ s) (h : s.toNat + m ≤ arr.length) :
    (arange s (s + (m : ℤ))).map (fun i => arr.getD i.toNat d) =
      (arr.drop s.toNat).take m := by
  apply List.ext_getElem
  · rw [List.length_map, arange_length, List.length_take, List.length_drop]
    omega
  · intro k h1 h2
    have hk : k < m := by
      rw [List.length_map, arange_length] at h1
      omega
    rw [List.getElem_map, List.getElem_take, List.getElem_drop]
    simp only [arange, List.getElem_map, List.getElem_range]
    have ht : (s + (k : ℤ)).toNat = s.toNat + k := by omega
    rw [ht, List.getD_eq_getElem arr d (by omega)]

/-! ## Mode branch lemmas for fconv_family -/

lemma fconv_full_ok (W S : List (List ℂ)) (h2 : W.length ≤ S.length) :
    fconv_family W S "full" = .ok (some (conv_tensor W S)) := by
  simp only [fconv_family]
  rw [if_neg (by omega), if_pos trivial]

lemma fconv_same_ok (W S : List (List ℂ)) (h1 : 2 ≤ W.length) (h2 : W.length ≤ S.length) :
    fconv_family W S "same" =
      .ok (some (((conv_tensor W S).drop ((W.length - 1) / 2)).take S.length)) := by
  simp only [fconv_family]
  rw [if_neg (by omega), if_neg (by decide), if_pos trivial]
  simp only [centered]
  rw [if_neg (by omega)]
  have hfd : Int.fdiv (((W.length + S.length - 1 : ℕ) : ℤ) - ((S.length : ℕ) : ℤ)) 2 =
      (((W.length + S.length - 1 : ℕ) : ℤ) - ((S.length : ℕ) : ℤ)) / 2 :=
    Int.fdiv_eq_ediv _ (by norm_num)
  have hslice := arange_map_getD (conv_tensor W S)
    (Int.fdiv (((W.length + S.length - 1 : ℕ) : ℤ) - ((S.length : ℕ) : ℤ)) 2)
    S.length [] (by rw [hfd]; omega)
    (by
      rw [conv_tensor_length, hfd]
      omega)
  have hsN : (Int.fdiv (((W.length + S.length - 1 : ℕ) : ℤ) - ((S.length : ℕ) : ℤ)) 2).toNat =
      (W.length - 1) / 2 := by
    rw [hfd]
    omega
  rw [hsN] at hslice
  exact congrArg (fun l => (Except.ok (some l) : Except String (Option (List (List (List ℂ)))))) hslice

lemma fconv_valid_ok (W S : List (List ℂ)) (h1 : 2 ≤ W.length) (h2 : W.length ≤ S.length) :
    fconv_family W S "valid" =
      .ok (some (((conv_tensor W S).drop (W.length - 1)).take (S.length - W.length + 1))) := by
  simp only [fconv_family]
  rw [if_neg (by omega), if_neg (by decide), if_neg (by decide), if_pos trivial]
  have habs : ((((S.length : ℤ) - ((W.length : ℕ) : ℤ)).natAbs + 1 : ℕ) : ℤ) =
      ((S.length - W.length + 1 : ℕ) : ℤ) := by omega
  rw [habs]
  simp only [centered]
  rw [if_neg (by omega)]
  have hfd : Int.fdiv (((W.length + S.length - 1 : ℕ) : ℤ) -
      ((S.length - W.length + 1 : ℕ) : ℤ)) 2 =
      (((W.length + S.length - 1 : ℕ) : ℤ) - ((S.length - W.length + 1 : ℕ) : ℤ)) / 2 :=
    Int.fdiv_eq_ediv _ (by norm_num)
  have hslice := arange_map_getD (conv_tensor W S)
    (Int.fdiv (((W.length + S.length - 1 : ℕ) : ℤ) - ((S.length - W.length + 1 : ℕ) : ℤ)) 2)
    (S.length - W.length + 1) [] (by rw [hfd]; omega)
    (by
      rw [conv_tensor_length, hfd]
      omega)
  have hsN : (Int.fdiv (((W.length + S.length - 1 : ℕ) : ℤ) -
      ((S.length - W.length + 1 : ℕ) : ℤ)) 2).toNat = W.length - 1 := by
    rw [hfd]
    omega
  rw [hsN] at hslice
  exact congrArg (fun l => (Except.ok (some l) : Except String (Option (List (List (List ℂ)))))) hslice

lemma fconv_same_err_one (W S : List (List ℂ)) (h1 : W.length = 1)
    (h2 : W.length ≤ S.length) :
    fconv_family W S "same" = .error "New size must be shorter than the current size." := by
  simp only [fconv_family]
  rw [if_neg (by omega), if_neg (by decide), if_pos trivial]
  simp only [centered]
  rw [if_pos (by omega)]

lemma fconv_valid_err_one (W S : List (List ℂ)) (h1 : W.length = 1)
    (h2 : W.length ≤ S.length) :
    fconv_family W S "valid" = .error "New size must be shorter than the current size." := by
  simp only [fconv_family]
  rw [if_neg (by omega), if_neg (by decide), if_neg (by decide), if_pos trivial]
  simp only [centered]
  rw [if_pos (by omega)]

/-! ## Claim C2: output shapes of fconv_family -/

/-- Claim C2 amended: with a bank of n1 rows and a signal of n2 rows, n1 less
than or equal to n2, mode full yields the (time, wavelet, channel) tensor of
time length n1+n2-1; when n1 is at least 2, mode same yields the centered
slice of the full tensor of time length n2 and mode valid the centered slice
of time length n2-n1+1; but when n1 equals 1, modes same and valid fail with
the error of centered because its strict precondition new < current is
violated. -/
theorem claim_C2 : ∀ wavelets signal : List (List ℂ),
    1 ≤ wavelets.length → wavelets.length ≤ signal.length →
    (∃ a, fconv_family wavelets signal "full" = .ok (some a) ∧
      a.length = wavelets.length + signal.length - 1 ∧
      (∀ t, t < wavelets.length + signal.length - 1 →
        (a.getD t []).length = ncols wavelets ∧
        ∀ w, w < ncols wavelets → ((a.getD t []).getD w []).length = ncols signal)) ∧
    (2 ≤ wavelets.length →
      fconv_family wavelets signal "same" = .ok (some
        (((conv_tensor wavelets signal).drop ((wavelets.length - 1) / 2)).take signal.length)) ∧
      (((conv_tensor wavelets signal).drop ((wavelets.length - 1) / 2)).take
        signal.length).length = signal.length) ∧
    (2 ≤ wavelets.length →
      fconv_family wavelets signal "valid" = .ok (some
        (((conv_tensor wavelets signal).drop (wavelets.length - 1)).take
          (signal.length - wavelets.length + 1))) ∧
      (((conv_tensor wavelets signal).drop (wavelets.length - 1)).take
        (signal.length - wavelets.length + 1)).length = signal.length - wavelets.length + 1) ∧
    (wavelets.length = 1 →
      fconv_family wavelets signal "same" =
        .error "New size must be shorter than the current size." ∧
      fconv_family wavelets signal "valid" =
        .error "New size must be shorter than the current size.") := by
  intro W S h1 h2
  refine ⟨⟨conv_tensor W S, fconv_full_ok W S h2, conv_tensor_length W S, ?_⟩, ?_, ?_, ?_⟩
  · intro t ht
    constructor
    · rw [conv_tensor_getD W S ht, List.length_map, List.length_range]
    · intro w hw
      rw [conv_tensor_getD W S ht,
        getD_map_of_lt _ _ (by simpa using hw) 0, getD_range hw,
        List.length_map, List.length_range]
  · intro hge
    refine ⟨fconv_same_ok W S hge h2, ?_⟩
    rw [List.length_take, List.length_drop, conv_tensor_length]
    omega
  · intro hge
    refine ⟨fconv_valid_ok W S hge h2, ?_⟩
    rw [List.length_take, List.length_drop, conv_tensor_length]
    omega
  · intro hone
    exact ⟨fconv_same_err_one W S hone h2, fconv_valid_err_one W S hone h2⟩

/-- Witness for claim C2 at the concrete sizes of the spec: a length 5 single
wavelet bank against a 100 sample, 3 channel signal gives time lengths 104,
100 and 96 with 1 wavelet and 3 channels in the full tensor. -/
theorem claim_C2_witness :
    (∃ a, fconv_family (List.replicate 5 [(1 : ℂ)]) (List.replicate 100 [1, 1, 1]) "full" =
        .ok (some a) ∧ a.length = 104 ∧
        (∀ t, t < 104 → (a.getD t []).length = 1 ∧
          ∀ w, w < 1 → ((a.getD t []).getD w []).length = 3)) ∧
    (∃ b, fconv_family (List.replicate 5 [(1 : ℂ)]) (List.replicate 100 [1, 1, 1]) "same" =
        .ok (some b) ∧ b.length = 100) ∧
    (∃ c, fconv_family (List.replicate 5 [(1 : ℂ)]) (List.replicate 100 [1, 1, 1]) "valid" =
        .ok (some c) ∧ c.length = 96) := by
  have h := claim_C2 (List.replicate 5 [(1 : ℂ)]) (List.replicate 100 [1, 1, 1])
    (by simp) (by simp)
  obtain ⟨⟨a, ha, halen, hat⟩, hsame, hvalid, _⟩ := h
  refine ⟨⟨a, ha, by simpa using halen, ?_⟩, ?_, ?_⟩
  · intro t ht
    have h5 : (List.replicate 5 [(1 : ℂ)]).length + (List.replicate 100 [(1 : ℂ), 1, 1]).length - 1
        = 104 := by simp
    have h := hat t (by omega)
    constructor
    · have := h.1
      simpa [ncols] using this
    · intro w hw
      have := h.2 w (by simpa [ncols] using hw)
      simpa [ncols] using this
  · obtain ⟨heq, hlen⟩ := hsame (by simp)
    exact ⟨_, heq, by simpa using hlen⟩
  · obtain ⟨heq, hlen⟩ := hvalid (by simp)
    exact ⟨_, heq, by simpa using hlen⟩

/-- Counterexample for claim C2 as stated: a length 1 wavelet bank against a
2 sample signal makes mode same fail inside centered instead of returning a
tensor of time length 2. -/
theorem claim_C2_counterexample :
    fconv_family [[(1 : ℂ)]] [[(1 : ℂ)], [(1 : ℂ)]] "same" =
      .error "New size must be shorter than the current size." :=
  fconv_same_err_one _ _ (by simp) (by simp)

/-! ## Channel permutation lemmas -/

lemma ext_getD {α : Type} (d : α) {l₁ l₂ : List α} (hlen : l₁.length = l₂.length)
    (h : ∀ k, k < l₁.length → l₁.getD k d = l₂.getD k d) : l₁ = l₂ := by
  apply List.ext_getElem hlen
  intro k h1 h2
  have hk := h k h1
  rwa [List.getD_eq_getElem _ d h1, List.getD_eq_getElem _ d h2] at hk

lemma rowPerm_length (p : ℕ → ℕ) (ws : List ℂ) : (rowPerm p ws).length = ws.length := by
  rw [rowPerm, List.length_map, List.length_range]

lemma rowPerm_getD (p : ℕ → ℕ) (ws : List ℂ) {j : ℕ} (hj : j < ws.length) :
    (rowPerm p ws).getD j 0 = ws.getD (p j) 0 := by
  rw [rowPerm, getD_map_of_lt _ _ (by simpa using hj) 0, getD_range hj]

lemma rowPerm_nil (p : ℕ → ℕ) : rowPerm p [] = [] := by
  simp [rowPerm]

lemma rowPerm_rowPerm {nc : ℕ} (p q : ℕ → ℕ)
    (hq : ∀ j, j < nc → q j < nc) (hpq : ∀ j, j < nc → p (q j) = j)
    (ws : List ℂ) (hws : ws.length = nc) :
    rowPerm q (rowPerm p ws) = ws := by
  apply ext_getD (0 : ℂ)
  · rw [rowPerm_length, rowPerm_length]
  · intro k hk
    rw [rowPerm_length, rowPerm_length, hws] at hk
    rw [rowPerm_getD q _ (by rw [rowPerm_length, hws]; exact hk),
      rowPerm_getD p ws (by rw [hws]; exact hq k hk), hpq k hk]

lemma permSignal_length (p : ℕ → ℕ) (S : List (List ℂ)) :
    (permSignal p S).length = S.length := by
  rw [permSignal, List.length_map]

lemma ncols_permSignal (p : ℕ → ℕ) (S : List (List ℂ)) :
    ncols (permSignal p S) = ncols S := by
  cases S with
  | nil => rfl
  | cons r t => simp [permSignal, ncols, rowPerm_length]

lemma col_permSignal (S : List (List ℂ)) (p : ℕ → ℕ)
    (hrect : ∀ r ∈ S, r.length = ncols S) {j : ℕ} (hj : j < ncols S) :
    col (permSignal p S) j = col S (p j) := by
  rw [col, col, permSignal, List.map_map]
  apply List.map_congr_left
  intro r hr
  have hrl : r.length = ncols S := hrect r hr
  show (rowPerm p r).getD j 0 = r.getD (p j) 0
  rw [rowPerm_getD p r (by rw [hrl]; exact hj)]

lemma conv_tensor_permSignal (W S : List (List ℂ)) (p : ℕ → ℕ)
    (hrect : ∀ r ∈ S, r.length = ncols S)
    (hp : ∀ j, j < ncols S → p j < ncols S) :
    conv_tensor W (permSignal p S) = permChan p (conv_tensor W S) := by
  rw [conv_tensor, permChan, conv_tensor, permSignal_length, ncols_permSignal, List.map_map]
  apply List.map_congr_left
  intro t _
  show _ = ((List.range (ncols W)).map fun w =>
      (List.range (ncols S)).map fun ch => convAt (col W w) (col S ch) t).map (rowPerm p)
  rw [List.map_map]
  apply List.map_congr_left
  intro w _
  show (List.range (ncols S)).map (fun ch => convAt (col W w) (col (permSignal p S) ch) t) =
    rowPerm p ((List.range (ncols S)).map fun ch => convAt (col W w) (col S ch) t)
  rw [rowPerm, List.length_map, List.length_range]
  apply List.map_congr_left
  intro j hj
  have hjlt : j < ncols S := List.mem_range.mp hj
  rw [col_permSignal S p hrect hjlt,
    getD_map_of_lt _ _ (by simpa using hp j hjlt) 0, getD_range (hp j hjlt)]

lemma permChan_roundtrip {nc : ℕ} (p q : ℕ → ℕ)
    (hq : ∀ j, j < nc → q j < nc) (hpq : ∀ j, j < nc → p (q j) = j)
    (a : List (List (List ℂ)))
    (ha : ∀ ts ∈ a, ∀ ws ∈ ts, ws.length = nc ∨ ws = []) :
    permChan q (permChan p a) = a := by
  rw [permChan, permChan, List.map_map]
  conv_rhs => rw [← List.map_id a]
  apply List.map_congr_left
  intro ts hts
  show (ts.map (rowPerm p)).map (rowPerm q) = ts
  rw [List.map_map]
  conv_rhs => rw [← List.map_id ts]
  apply List.map_congr_left
  intro ws hws
  show rowPerm q (rowPerm p ws) = ws
  rcases ha ts hts ws hws with h | h
  · exact rowPerm_rowPerm p q hq hpq ws h
  · rw [h, rowPerm_nil, rowPerm_nil]

lemma slice_permChan (p : ℕ → ℕ) (arr : List (List (List ℂ))) (idx : List ℤ) :
    idx.map (fun i => (permChan p arr).getD i.toNat []) =
      permChan p (idx.map fun i => arr.getD i.toNat []) := by
  rw [permChan, permChan, List.map_map]
  apply List.map_congr_left
  intro i _
  exact getD_map_fix _ arr i.toNat rfl

/-! ## Permutation invariance of fconv_family -/

lemma getD_mem_or_default {α : Type} (l : List α) (i : ℕ) (d : α) :
    l.getD i d ∈ l ∨ l.getD i d = d := by
  by_cases h : i < l.length
  · left
    rw [List.getD_eq_getElem _ _ h]
    exact List.getElem_mem _
  · right
    exact List.getD_eq_default _ _ (le_of_not_lt h)

lemma conv_tensor_inner (W S : List (List ℂ)) :
    ∀ ts ∈ conv_tensor W S, ∀ ws ∈ ts, ws.length = ncols S := by
  intro ts hts ws hws
  rw [conv_tensor] at hts
  rcases List.mem_map.mp hts with ⟨t, _, ht⟩
  rw [← ht] at hws
  rcases List.mem_map.mp hws with ⟨w, _, hw⟩
  rw [← hw, List.length_map, List.length_range]

lemma slice_inner (W S : List (List ℂ)) (idx : List ℤ) :
    ∀ ts ∈ idx.map (fun i => (conv_tensor W S).getD i.toNat []), ∀ ws ∈ ts,
      ws.length = ncols S ∨ ws = [] := by
  intro ts hts ws hws
  rcases List.mem_map.mp hts with ⟨i, _, hi⟩
  rcases getD_mem_or_default (conv_tensor W S) i.toNat [] with h | h
  · rw [← hi] at hws
    exact Or.inl (conv_tensor_inner W S _ h ws hws)
  · rw [← hi, h] at hws
    simp at hws

lemma fconv_inner (W S : List (List ℂ)) (mode : String)
    (res : List (List (List ℂ))) (h : fconv_family W S mode = .ok (some res)) :
    ∀ ts ∈ res, ∀ ws ∈ ts, ws.length = ncols S ∨ ws = [] := by
  simp only [fconv_family] at h
  by_cases hlen : W.length > S.length
  · rw [if_pos hlen] at h
    simp at h
  · rw [if_neg hlen] at h
    by_cases hfull : mode = "full"
    · rw [if_pos hfull] at h
      simp only [Except.ok.injEq, Option.some.injEq] at h
      rw [← h]
      intro ts hts ws hws
      exact Or.inl (conv_tensor_inner W S ts hts ws hws)
    · rw [if_neg hfull] at h
      by_cases hsame : mode = "same"
      · rw [if_pos hsame] at h
        rcases hcent : centered ((W.length + S.length - 1 : ℕ) : ℤ) ((S.length : ℕ) : ℤ)
          with e | idx
        · rw [hcent] at h
          simp at h
        · rw [hcent] at h
          simp only [Except.ok.injEq, Option.some.injEq] at h
          rw [← h]
          exact slice_inner W S idx
      · rw [if_neg hsame] at h
        by_cases hvalid : mode = "valid"
        · rw [if_pos hvalid] at h
          rcases hcent : centered ((W.length + S.length - 1 : ℕ) : ℤ)
            (((((S.length : ℤ) - ((W.length : ℕ) : ℤ)).natAbs + 1 : ℕ)) : ℤ) with e | idx
          · rw [hcent] at h
            simp at h
          · rw [hcent] at h
            simp only [Except.ok.injEq, Option.some.injEq] at h
            rw [← h]
            exact slice_inner W S idx
        · rw [if_neg hvalid] at h
          simp at h

lemma fconv_perm (W S : List (List ℂ)) (p : ℕ → ℕ)
    (hrect : ∀ r ∈ S, r.length = ncols S)
    (hp : ∀ j, j < ncols S → p j < ncols S) (mode : String) :
    fconv_family W (permSignal p S) mode =
      Except.map (Option.map (permChan p)) (fconv_family W S mode) := by
  have harr := conv_tensor_permSignal W S p hrect hp
  simp only [fconv_family, permSignal_length]
  by_cases hlen : W.length > S.length
  · rw [if_pos hlen, if_pos hlen]
    rfl
  · rw [if_neg hlen, if_neg hlen]
    by_cases hfull : mode = "full"
    · rw [if_pos hfull, if_pos hfull, harr]
      rfl
    · rw [if_neg hfull, if_neg hfull]
      by_cases hsame : mode = "same"
      · rw [if_pos hsame, if_pos hsame]
        rcases centered ((W.length + S.length - 1 : ℕ) : ℤ) ((S.length : ℕ) : ℤ)
          with e | idx
        · rfl
        · rw [harr]
          exact congrArg
            (fun l => (Except.ok (some l) : Except String (Option (List (List (List ℂ))))))
            (slice_permChan p (conv_tensor W S) idx)
      · rw [if_neg hsame, if_neg hsame]
        by_cases hvalid : mode = "valid"
        · rw [if_pos hvalid, if_pos hvalid]
          rcases centered ((W.length + S.length - 1 : ℕ) : ℤ)
            (((((S.length : ℤ) - ((W.length : ℕ) : ℤ)).natAbs + 1 : ℕ)) : ℤ) with e | idx
          · rfl
          · rw [harr]
            exact congrArg
              (fun l => (Except.ok (some l) : Except String (Option (List (List (List ℂ))))))
              (slice_permChan p (conv_tensor W S) idx)
        · rw [if_neg hvalid, if_neg hvalid]
          rfl

/-! ## Claim C9 -/

/-- Claim C9: convolving the channel-permuted signal and applying the inverse
permutation to the channel axis of the result gives exactly the result of
convolving the original signal, for every mode; channels are processed by
independent iterations of the per-channel loop. -/
theorem claim_C9 : ∀ (wavelets signal : List (List ℂ)) (p pinv : ℕ → ℕ) (mode : String),
    (∀ r ∈ signal, r.length = ncols signal) →
    (∀ j, j < ncols signal → p j < ncols signal) →
    (∀ j, j < ncols signal → pinv j < ncols signal) →
    (∀ j, j < ncols signal → pinv (p j) = j) →
    (∀ j, j < ncols signal → p (pinv j) = j) →
    fconv_family wavelets signal mode =
      Except.map (Option.map (permChan pinv))
        (fconv_family wavelets (permSignal p signal) mode) := by
  intro W S p q mode hrect hp hq hqp hpq
  rw [fconv_perm W S p hrect hp mode]
  rcases hres : fconv_family W S mode with e | o
  · rfl
  · rcases o with _ | res
    · rfl
    · show Except.ok (some res) = Except.ok (some (permChan q (permChan p res)))
      rw [permChan_roundtrip p q hq hpq res (fconv_inner W S mode res hres)]

/-- Witness for claim C9: a one sample bank against a one sample, two channel
signal with the channel swap as the permutation (its own inverse), mode full. -/
theorem claim_C9_witness :
    fconv_family [[(1 : ℂ)]] [[(1 : ℂ), 2]] "full" =
      Except.map (Option.map (permChan fun j => 1 - j))
        (fconv_family [[(1 : ℂ)]] (permSignal (fun j => 1 - j) [[(1 : ℂ), 2]]) "full") :=
  claim_C9 [[(1 : ℂ)]] [[(1 : ℂ), 2]] (fun j => 1 - j) (fun j => 1 - j) "full"
    (by
      intro r hr
      simp only [List.mem_singleton] at hr
      rw [hr]
      rfl)
    (by
      intro j hj
      have h2 : j < 2 := hj
      show 1 - j < 2
      omega)
    (by
      intro j hj
      have h2 : j < 2 := hj
      show 1 - j < 2
      omega)
    (by
      intro j hj
      have h2 : j < 2 := hj
      show 1 - (1 - j) = j
      omega)
    (by
      intro j hj
      have h2 : j < 2 := hj
      show 1 - (1 - j) = j
      omega)
